import Mathlib

/-!
Shallow embedding of `settrie.py` (classes `SetTrie` and `SetTrieMap`).

Elements of stored sets are modelled as `Nat` (the source only requires a
totally ordered, equality-comparable element domain).  A trie node carries a
terminal flag (`flag_last` in the source) and its ascending list of children;
the element stored in a child node (`Node.data` in the source) is the key of
the corresponding entry of the parent's child list, and the root's absent
`data = None` corresponds to the root being a bare `Node`.  A Python set
argument is modelled by the ascending duplicate-free list of its elements;
an arbitrary iterable argument is an arbitrary `List Nat`, and `sortList`
models Python's `sorted`.
-/

namespace Settrie

/-- Insert an element into an ascending list, keeping duplicates. -/
def insertSorted (x : Nat) : List Nat → List Nat
  | [] => [x]
  | y :: ys => if x ≤ y then x :: y :: ys else y :: insertSorted x ys

/-- Python `sorted(iterable)`: ascending sort, duplicates kept. -/
def sortList (l : List Nat) : List Nat := l.foldr insertSorted []

mutual
/-- A trie node: `flag_last` and the ascending child list (`SortedList`). -/
inductive Node : Type where
  | mk (flagLast : Bool) (children : Children)
/-- The child list of a node; each entry holds the child's `data` key. -/
inductive Children : Type where
  | nil
  | cons (key : Nat) (child : Node) (rest : Children)
end

/-- `SetTrie.__init__`: root node, no children, not terminal. -/
def emptyTrie : Node := .mk false .nil

/-- `node.flag_last`. -/
def Node.flag : Node → Bool
  | .mk b _ => b

/-- `node.children`. -/
def Node.kids : Node → Children
  | .mk _ cs => cs

mutual
/-- `SetTrie._add(node, it)`: walk the sorted sequence, inserting missing
children, and mark the final node terminal. -/
def addN : Node → List Nat → Node
  | .mk _ cs, [] => .mk true cs
  | .mk b cs, x :: xs => .mk b (addC cs x xs)
/-- Child step of `_add`: `children.index(Node(data))` on the ascending
`SortedList` finds the unique child with this key; on `ValueError` a fresh
node is created and inserted at its sorted position by `children.add`. -/
def addC : Children → Nat → List Nat → Children
  | .nil, x, xs => .cons x (addN (.mk false .nil) xs) .nil
  | .cons k c cs, x, xs =>
    if k = x then .cons k (addN c xs) cs
    else if k < x then .cons k c (addC cs x xs)
    else .cons x (addN (.mk false .nil) xs) (.cons k c cs)
end

/-- `children.index(Node(x))`: the child with key `x`, if any. -/
def findC (x : Nat) : Children → Option Node
  | .nil => none
  | .cons k c cs => if k = x then some c else findC x cs

/-- `SetTrie._contains(node, it)`. -/
def containsN : Node → List Nat → Bool
  | .mk b _, [] => b
  | .mk _ cs, x :: xs =>
    match findC x cs with
    | some c => containsN c xs
    | none => false

mutual
/-- `SetTrie._hassuperset(node, setarr, idx)`; the unconsumed query suffix
`setarr[idx:]` is passed as a list. -/
def hassupersetN : Node → List Nat → Bool
  | _, [] => true
  | .mk _ cs, x :: rest => hssCh cs x rest
/-- The child loop of `_hassuperset`: `break` when `child.data > setarr[idx]`,
recurse with `idx+1` on an exact key match, with `idx` otherwise, and stop at
the first recursive `True`. -/
def hssCh : Children → Nat → List Nat → Bool
  | .nil, _, _ => false
  | .cons k c cs, x, rest =>
    if x < k then false
    else if k = x then (hassupersetN c rest || hssCh cs x rest)
    else (hassupersetN c (x :: rest) || hssCh cs x rest)
end

mutual
/-- `SetTrie._itersupersets(node, setarr, idx, path)`: `path` already holds
the keys on the way to (and including) this node; emission order is the
generator's yield order. -/
def itersupN : Node → List Nat → List Nat → List (List Nat)
  | .mk b cs, q, path =>
    (if b ∧ q = [] then [path] else []) ++
      (match q with
       | [] => itersupAll cs path
       | x :: rest => itersupC cs x rest path)
/-- The `else` loop of `_itersupersets`: no query elements left, traverse the
whole subtree. -/
def itersupAll : Children → List Nat → List (List Nat)
  | .nil, _ => []
  | .cons k c cs, path => itersupN c [] (path ++ [k]) ++ itersupAll cs path
/-- The pruning loop of `_itersupersets`: `break` past `setarr[idx]`, descend
with `idx+1` on an exact match and with `idx` on smaller keys. -/
def itersupC : Children → Nat → List Nat → List Nat → List (List Nat)
  | .nil, _, _, _ => []
  | .cons k c cs, x, rest, path =>
    if x < k then []
    else if k = x then itersupN c rest (path ++ [k]) ++ itersupC cs x rest path
    else itersupN c (x :: rest) (path ++ [k]) ++ itersupC cs x rest path
end

/-- `SetTrie._hassubset(node, setarr, idx)`: `True` at once on a terminal
node; with the query exhausted, `False` (for an exhausted query the two
initial checks collapse to returning `flag_last`); otherwise try the child
with key `setarr[idx]` at `idx+1`, and on failure retry this node at
`idx+1`. -/
def hassubsetN : Node → List Nat → Bool
  | n, [] => n.flag
  | n, x :: rest =>
    if n.flag = true then true
    else
      (match findC x n.kids with
       | some c => hassubsetN c rest
       | none => false) || hassubsetN n rest

mutual
/-- `SetTrie._itersubsets(node, setarr, idx, path)`: the query suffix
`setarr[idx:]` is threaded through the child loop (the source mutates the
local `idx` across loop iterations). -/
def itersubN : Node → List Nat → List Nat → List (List Nat)
  | .mk b cs, q, path => (if b then [path] else []) ++ itersubC cs q path
/-- The child loop of `_itersubsets`: `break` when the query is exhausted;
descend with `idx+1` on `child.data == setarr[idx]`, otherwise run the inner
`while` scan with `idx` already advanced by one. -/
def itersubC : Children → List Nat → List Nat → List (List Nat)
  | .nil, _, _ => []
  | .cons _ _ _, [], _ => []
  | .cons k c cs, x :: rest, path =>
    if k = x then itersubN c rest (path ++ [k]) ++ itersubC cs (x :: rest) path
    else scanC k c cs rest path
/-- The inner `while` of `_itersubsets`: advance `idx` while
`child.data >= setarr[idx]`; on an exact match recurse (with `idx` at the
matched position) and `break`, after which the outer loop resumes at the
current `idx`. -/
def scanC : Nat → Node → Children → List Nat → List Nat → List (List Nat)
  | _, _, cs, [], path => itersubC cs [] path
  | k, c, cs, y :: rest, path =>
    if k < y then itersubC cs (y :: rest) path
    else if k = y then
      itersubN c (y :: rest) (path ++ [k]) ++ itersubC cs (y :: rest) path
    else scanC k c cs rest path
end

mutual
/-- `SetTrie._iter(node, path)`: pre-order traversal yielding every terminal
path. -/
def elemsN : Node → List Nat → List (List Nat)
  | .mk b cs, path => (if b then [path] else []) ++ elemsC cs path
/-- Child loop of `_iter`. -/
def elemsC : Children → List Nat → List (List Nat)
  | .nil, _ => []
  | .cons k c cs, path => elemsN c (path ++ [k]) ++ elemsC cs path
end

/-- `SetTrie.add(aset)`. -/
def add (t : Node) (a : List Nat) : Node := addN t (sortList a)

/-- `SetTrie.contains(aset)`. -/
def contains (t : Node) (a : List Nat) : Bool := containsN t (sortList a)

/-- `SetTrie.hassuperset(aset)`. -/
def hassuperset (t : Node) (a : List Nat) : Bool := hassupersetN t (sortList a)

/-- `SetTrie.supersets(aset) = list(itersupersets(aset))`. -/
def supersets (t : Node) (a : List Nat) : List (List Nat) :=
  itersupN t (sortList a) []

/-- `SetTrie.hassubset(aset)`. -/
def hassubset (t : Node) (a : List Nat) : Bool := hassubsetN t (sortList a)

/-- `SetTrie.subsets(aset) = list(itersubsets(aset))`. -/
def subsets (t : Node) (a : List Nat) : List (List Nat) :=
  itersubN t (sortList a) []

/-- `SetTrie.aslist()` (and direct iteration): every stored set, as the
ascending path of the corresponding terminal node. -/
def aslist (t : Node) : List (List Nat) := elemsN t []

/-- `lb < k`, where `lb = none` ("the root has no key") bounds nothing. -/
def lbLt : Option Nat → Nat → Bool
  | none, _ => true
  | some m, k => decide (m < k)

mutual
/-- Well-formedness of a subtree whose own key is `lb` (`none` at the root):
the child keys are strictly ascending and exceed the node's own key — the
invariant maintained by the ascending unique-key `SortedList` of children
that every trie reachable through `add` satisfies. -/
def nodeWF : Option Nat → Node → Bool
  | lb, .mk _ cs => chWF lb cs
/-- Child-list part of `nodeWF`. -/
def chWF : Option Nat → Children → Bool
  | _, .nil => true
  | lb, .cons k c cs => lbLt lb k && nodeWF (some k) c && chWF (some k) cs
end

mutual
/-- `SetTrieMap.Node`: a `SetTrie.Node` with a `value` payload.  `none`
models the attribute holding Python `None`: the constructor always stores
`None` (its `value` argument is ignored by the source) and only `_assign`
ever writes the field. -/
inductive NodeM (V : Type) : Type where
  | mk (flagLast : Bool) (value : Option V) (children : ChildrenM V)
/-- Child list of a `SetTrieMap` node. -/
inductive ChildrenM (V : Type) : Type where
  | nil
  | cons (key : Nat) (child : NodeM V) (rest : ChildrenM V)
end

variable {V : Type}

/-- `SetTrieMap.__init__`: a bare root node. -/
def emptyMap (V : Type) : NodeM V := .mk false none .nil

mutual
/-- `SetTrieMap._assign(node, it, val)`: walk the sorted key sequence and
set `flag_last` and `value` on the final node (last write wins). -/
def assignN : NodeM V → List Nat → V → NodeM V
  | .mk _ _ cs, [], v => .mk true (some v) cs
  | .mk b w cs, x :: xs, v => .mk b w (assignC cs x xs v)
/-- Child step of `_assign`, like `addC` for `_add`. -/
def assignC : ChildrenM V → Nat → List Nat → V → ChildrenM V
  | .nil, x, xs, v => .cons x (assignN (.mk false none .nil) xs v) .nil
  | .cons k c cs, x, xs, v =>
    if k = x then .cons k (assignN c xs v) cs
    else if k < x then .cons k c (assignC cs x xs v)
    else .cons x (assignN (.mk false none .nil) xs v) (.cons k c cs)
end

/-- `children.index(Node(x))` for the map variant. -/
def findCM (x : Nat) : ChildrenM V → Option (NodeM V)
  | .nil => none
  | .cons k c cs => if k = x then some c else findCM x cs

/-- `SetTrieMap._get(node, it, default)`: once the key sequence is
exhausted, return `node.value` if the node is terminal (a terminal node's
value was always written by `_assign`), else the default. -/
def getN : NodeM V → List Nat → V → V
  | .mk b w _, [], d => if b then w.getD d else d
  | .mk _ _ cs, x :: xs, d =>
    match findCM x cs with
    | some c => getN c xs d
    | none => d

mutual
/-- `SetTrieMap._hassuperset` — textually identical to the `SetTrie` one. -/
def hassupersetMN : NodeM V → List Nat → Bool
  | _, [] => true
  | .mk _ _ cs, x :: rest => hssChM cs x rest
/-- Child loop of `SetTrieMap._hassuperset`. -/
def hssChM : ChildrenM V → Nat → List Nat → Bool
  | .nil, _, _ => false
  | .cons k c cs, x, rest =>
    if x < k then false
    else if k = x then (hassupersetMN c rest || hssChM cs x rest)
    else (hassupersetMN c (x :: rest) || hssChM cs x rest)
end

mutual
/-- `SetTrieMap._iter(node, path, mode='keys')`: the keyset enumeration. -/
def keysN : NodeM V → List Nat → List (List Nat)
  | .mk b _ cs, path => (if b then [path] else []) ++ keysC cs path
/-- Child loop of the keyset enumeration. -/
def keysC : ChildrenM V → List Nat → List (List Nat)
  | .nil, _ => []
  | .cons k c cs, path => keysN c (path ++ [k]) ++ keysC cs path
end

/-- `SetTrieMap.assign(akey, avalue)`. -/
def assign (t : NodeM V) (akey : List Nat) (v : V) : NodeM V :=
  assignN t (sortList akey) v

/-- `SetTrieMap.get(keyset, default)`. -/
def get (t : NodeM V) (keyset : List Nat) (d : V) : V :=
  getN t (sortList keyset) d

/-- `SetTrieMap.hassuperset(aset)`. -/
def hassupersetMap (t : NodeM V) (a : List Nat) : Bool :=
  hassupersetMN t (sortList a)

/-- `SetTrieMap.keys()`: the key enumeration (`iter(mode='keys')`). -/
def keys (t : NodeM V) : List (List Nat) := keysN t []

mutual
/-- Forget the values of a map trie, leaving the underlying `SetTrie`
shape; `_assign` acts on this shape exactly like `_add`. -/
def eraseN : NodeM V → Node
  | .mk b _ cs => .mk b (eraseC cs)
/-- Child-list part of `eraseN`. -/
def eraseC : ChildrenM V → Children
  | .nil => .nil
  | .cons k c cs => .cons k (eraseN c) (eraseC cs)
end

/-!
State-passing embeddings of the query operations.  The Python queries walk a
mutable object graph; to state that they leave it unchanged, each is
re-embedded with the trie threaded through the call as explicit state: the
function returns its result together with the tree reassembled from every
node it touched, and the frame property says the reassembled tree is the
input.  The result components mirror the pure embeddings line by line.
-/

mutual
/-- State-passing `_contains`. -/
def containsSt : Node → List Nat → Bool × Node
  | .mk b cs, [] => (b, .mk b cs)
  | .mk b cs, x :: xs =>
    let p := containsChSt cs x xs
    (p.1, .mk b p.2)
/-- State-passing child lookup and descent of `_contains`. -/
def containsChSt : Children → Nat → List Nat → Bool × Children
  | .nil, _, _ => (false, .nil)
  | .cons k c cs, x, xs =>
    if k = x then
      let p := containsSt c xs
      (p.1, .cons k p.2 cs)
    else
      let p := containsChSt cs x xs
      (p.1, .cons k c p.2)
end

mutual
/-- State-passing `_hassuperset`. -/
def hassupSt : Node → List Nat → Bool × Node
  | .mk b cs, [] => (true, .mk b cs)
  | .mk b cs, x :: rest =>
    let p := hssChSt cs x rest
    (p.1, .mk b p.2)
/-- State-passing child loop of `_hassuperset`. -/
def hssChSt : Children → Nat → List Nat → Bool × Children
  | .nil, _, _ => (false, .nil)
  | .cons k c cs, x, rest =>
    if x < k then (false, .cons k c cs)
    else if k = x then
      let p := hassupSt c rest
      if p.1 then (true, .cons k p.2 cs)
      else
        let q := hssChSt cs x rest
        (q.1, .cons k p.2 q.2)
    else
      let p := hassupSt c (x :: rest)
      if p.1 then (true, .cons k p.2 cs)
      else
        let q := hssChSt cs x rest
        (q.1, .cons k p.2 q.2)
end

mutual
/-- State-passing `_hassubset`. -/
def hassubSt : Node → List Nat → Bool × Node
  | n, [] => (n.flag, n)
  | .mk b cs, x :: rest =>
    if b = true then (true, .mk b cs)
    else
      let p := hassubChSt cs x rest
      let q := hassubSt (.mk b p.2) rest
      (p.1 || q.1, q.2)
/-- State-passing lookup-and-descend step of `_hassubset`. -/
def hassubChSt : Children → Nat → List Nat → Bool × Children
  | .nil, _, _ => (false, .nil)
  | .cons k c cs, x, rest =>
    if k = x then
      let p := hassubSt c rest
      (p.1, .cons k p.2 cs)
    else
      let p := hassubChSt cs x rest
      (p.1, .cons k c p.2)
end

mutual
/-- State-passing `_itersupersets`. -/
def iterSupSt : Node → List Nat → List Nat → List (List Nat) × Node
  | .mk b cs, q, path =>
    let emitted := if b ∧ q = [] then [path] else []
    match q with
    | [] =>
      let p := iterSupAllSt cs path
      (emitted ++ p.1, .mk b p.2)
    | x :: rest =>
      let p := iterSupCSt cs x rest path
      (emitted ++ p.1, .mk b p.2)
/-- State-passing unrestricted child loop of `_itersupersets`. -/
def iterSupAllSt : Children → List Nat → List (List Nat) × Children
  | .nil, _ => ([], .nil)
  | .cons k c cs, path =>
    let p := iterSupSt c [] (path ++ [k])
    let q := iterSupAllSt cs path
    (p.1 ++ q.1, .cons k p.2 q.2)
/-- State-passing pruning child loop of `_itersupersets`. -/
def iterSupCSt : Children → Nat → List Nat → List Nat → List (List Nat) × Children
  | .nil, _, _, _ => ([], .nil)
  | .cons k c cs, x, rest, path =>
    if x < k then ([], .cons k c cs)
    else if k = x then
      let p := iterSupSt c rest (path ++ [k])
      let q := iterSupCSt cs x rest path
      (p.1 ++ q.1, .cons k p.2 q.2)
    else
      let p := iterSupSt c (x :: rest) (path ++ [k])
      let q := iterSupCSt cs x rest path
      (p.1 ++ q.1, .cons k p.2 q.2)
end

mutual
/-- State-passing `_itersubsets`. -/
def iterSubSt : Node → List Nat → List Nat → List (List Nat) × Node
  | .mk b cs, q, path =>
    let p := iterSubCSt cs q path
    ((if b then [path] else []) ++ p.1, .mk b p.2)
/-- State-passing child loop of `_itersubsets`. -/
def iterSubCSt : Children → List Nat → List Nat → List (List Nat) × Children
  | .nil, _, _ => ([], .nil)
  | .cons k c cs, [], _ => ([], .cons k c cs)
  | .cons k c cs, x :: rest, path =>
    if k = x then
      let p := iterSubSt c rest (path ++ [k])
      let q := iterSubCSt cs (x :: rest) path
      (p.1 ++ q.1, .cons k p.2 q.2)
    else scanSt k c cs rest path
/-- State-passing inner `while` scan of `_itersubsets`. -/
def scanSt : Nat → Node → Children → List Nat → List Nat → List (List Nat) × Children
  | k, c, cs, [], path =>
    let p := iterSubCSt cs [] path
    (p.1, .cons k c p.2)
  | k, c, cs, y :: rest, path =>
    if k < y then
      let p := iterSubCSt cs (y :: rest) path
      (p.1, .cons k c p.2)
    else if k = y then
      let p := iterSubSt c (y :: rest) (path ++ [k])
      let q := iterSubCSt cs (y :: rest) path
      (p.1 ++ q.1, .cons k p.2 q.2)
    else scanSt k c cs rest path
end

mutual
/-- State-passing `_iter` (direct iteration / `aslist`). -/
def iterSt : Node → List Nat → List (List Nat) × Node
  | .mk b cs, path =>
    let p := iterChSt cs path
    ((if b then [path] else []) ++ p.1, .mk b p.2)
/-- State-passing child loop of `_iter`. -/
def iterChSt : Children → List Nat → List (List Nat) × Children
  | .nil, _ => ([], .nil)
  | .cons k c cs, path =>
    let p := iterSt c (path ++ [k])
    let q := iterChSt cs path
    (p.1 ++ q.1, .cons k p.2 q.2)
end

/-- Brute-force subset test (`x.issubset(ns)` in the reference tests):
every element of `s` occurs in `q`. -/
def subOf (s q : List Nat) : Bool := s.all fun y => decide (y ∈ q)

/-- Brute-force superset test (`x.issuperset(ns)` in the reference tests):
`s` contains every element of `q`. -/
def supOf (s q : List Nat) : Bool := q.all fun y => decide (y ∈ s)

/-- Lexicographic comparison of canonical ascending element sequences, a
proper prefix counting as smaller — the order `toList` is specified to
produce. -/
def lexLt : List Nat → List Nat → Bool
  | [], [] => false
  | [], _ :: _ => true
  | _ :: _, [] => false
  | a :: s, b :: u => if a < b then true else if a = b then lexLt s u else false

/-- The canonical fixture of the reference test suite:
`SetTrie([{1,3}, {1,3,5}, {1,4}, {1,2,4}, {2,4}, {2,3,5}])`. -/
def fixtureTrie : Node :=
  [[1, 3], [1, 3, 5], [1, 4], [1, 2, 4], [2, 4], [2, 3, 5]].foldl add emptyTrie

mutual
/-- State-passing `SetTrieMap._get`. -/
def getSt : NodeM V → List Nat → V → V × NodeM V
  | .mk b w cs, [], d => ((if b then w.getD d else d), .mk b w cs)
  | .mk b w cs, x :: xs, d =>
    let p := getChSt cs x xs d
    (p.1, .mk b w p.2)
/-- State-passing child lookup and descent of `SetTrieMap._get`. -/
def getChSt : ChildrenM V → Nat → List Nat → V → V × ChildrenM V
  | .nil, _, _, d => (d, .nil)
  | .cons k c cs, x, xs, d =>
    if k = x then
      let p := getSt c xs d
      (p.1, .cons k p.2 cs)
    else
      let p := getChSt cs x xs d
      (p.1, .cons k c p.2)
end

/-! ### Basic lemmas -/

theorem insertSorted_of_le (x : Nat) (l : List Nat) (h : ∀ y ∈ l.head?, x ≤ y) :
    insertSorted x l = x :: l := by
  cases l with
  | nil => rfl
  | cons y ys => simp [insertSorted, h y (by simp)]

theorem sortList_cons (x : Nat) (l : List Nat) :
    sortList (x :: l) = insertSorted x (sortList l) := rfl

/-- Python's `sorted` leaves a strictly ascending sequence unchanged, so a
set argument passed in canonical form is processed as-is. -/
theorem sortList_of_chain : ∀ l : List Nat, List.Chain' (· < ·) l → sortList l = l
  | [], _ => rfl
  | x :: l, h => by
    rw [sortList_cons, sortList_of_chain l h.tail]
    refine insertSorted_of_le x l fun y hy => Nat.le_of_lt ?_
    exact List.Chain'.rel_head? h hy

theorem lexLt_irrefl : ∀ s : List Nat, lexLt s s = false
  | [] => rfl
  | a :: s => by simp [lexLt, lexLt_irrefl s]

theorem lexLt_cons_same (k : Nat) (u v : List Nat) :
    lexLt (k :: u) (k :: v) = lexLt u v := by
  simp [lexLt]

theorem lexLt_cons_lt {k j : Nat} (h : k < j) (u v : List Nat) :
    lexLt (k :: u) (j :: v) = true := by
  simp [lexLt, h]

theorem lexLt_nil_cons (k : Nat) (v : List Nat) : lexLt [] (k :: v) = true := rfl

theorem lbLt_trans {lb : Option Nat} {k y : Nat} (h1 : lbLt lb k = true) (h2 : k < y) :
    lbLt lb y = true := by
  cases lb
  · simp [lbLt]
  · simp [lbLt] at h1 ⊢
    omega

theorem chain_lt_mem {x : Nat} {l : List Nat} (h : List.Chain' (· < ·) (x :: l)) :
    ∀ y ∈ l, x < y := by
  have hp : List.Pairwise (· < ·) (x :: l) := List.chain'_iff_pairwise.mp h
  exact fun y hy => (List.pairwise_cons.mp hp).1 y hy

/-! ### Factorisation of the `path` accumulator -/

mutual
theorem elemsN_factor : ∀ (n : Node) (path : List Nat),
    elemsN n path = (elemsN n []).map (path ++ ·)
  | .mk b cs, path => by
    have hc := elemsC_factor cs path
    simp only [elemsN, hc]
    cases b <;> simp
theorem elemsC_factor : ∀ (cs : Children) (path : List Nat),
    elemsC cs path = (elemsC cs []).map (path ++ ·)
  | .nil, path => by simp [elemsC]
  | .cons k c cs, path => by
    have h1 := elemsN_factor c (path ++ [k])
    have h2 := elemsN_factor c [k]
    have h3 := elemsC_factor cs path
    simp only [elemsC, List.nil_append, h1, h2, h3, List.map_append, List.map_map]
    congr 1
    apply List.map_congr_left
    intro v _
    simp
end

theorem elemsC_cons (k : Nat) (c : Node) (cs : Children) :
    elemsC (.cons k c cs) [] = (elemsN c []).map (k :: ·) ++ elemsC cs [] := by
  have := elemsN_factor c [k]
  simp only [elemsC, List.nil_append, this]
  rfl

/-! ### Bounds on emitted sets in a well-formed trie -/

mutual
theorem elemsN_bound : ∀ (lb : Option Nat) (n : Node), nodeWF lb n = true →
    ∀ s ∈ elemsN n [], List.Chain' (· < ·) s ∧ ∀ y ∈ s, lbLt lb y = true
  | lb, .mk b cs, hwf => by
    intro s hs
    simp only [elemsN] at hs
    rcases List.mem_append.mp hs with hl | hr
    · have : s = [] := by
        cases b <;> simp at hl
        exact hl
      subst this
      exact ⟨List.chain'_nil, by simp⟩
    · have hcs : chWF lb cs = true := by simpa [nodeWF] using hwf
      have h := elemsC_bound lb cs hcs s hr
      exact ⟨h.2.1, h.2.2⟩
theorem elemsC_bound : ∀ (lb : Option Nat) (cs : Children), chWF lb cs = true →
    ∀ s ∈ elemsC cs [],
      s ≠ [] ∧ List.Chain' (· < ·) s ∧ ∀ y ∈ s, lbLt lb y = true
  | lb, .nil, _ => by intro s hs; simp [elemsC] at hs
  | lb, .cons k c cs, hwf => by
    intro s hs
    have hw : lbLt lb k = true ∧ nodeWF (some k) c = true ∧ chWF (some k) cs = true := by
      simpa [chWF, Bool.and_eq_true, and_assoc] using hwf
    rw [elemsC_cons] at hs
    rcases List.mem_append.mp hs with hl | hr
    · rcases List.mem_map.mp hl with ⟨v, hv, rfl⟩
      have hb := elemsN_bound (some k) c hw.2.1 v hv
      have hkv : ∀ y ∈ v, k < y := by
        intro y hy
        have := hb.2 y hy
        simpa [lbLt] using this
      refine ⟨by simp, ?_, ?_⟩
      · exact hb.1.cons' fun y hy => hkv y (List.mem_of_mem_head? hy)
      · intro y hy
        rcases List.mem_cons.mp hy with rfl | hy'
        · exact hw.1
        · exact lbLt_trans hw.1 (hkv y hy')
    · have h := elemsC_bound (some k) cs hw.2.2 s hr
      refine ⟨h.1, h.2.1, fun y hy => ?_⟩
      have : k < y := by simpa [lbLt] using h.2.2 y hy
      exact lbLt_trans hw.1 this
end

/-! ### Child lookup and exact membership -/

theorem findC_WF : ∀ (lb : Option Nat) (cs : Children) (x : Nat) (c : Node),
    chWF lb cs = true → findC x cs = some c →
    nodeWF (some x) c = true ∧ lbLt lb x = true
  | lb, .nil, x, c, _, hf => by simp [findC] at hf
  | lb, .cons k c' cs, x, c, hwf, hf => by
    have hw : lbLt lb k = true ∧ nodeWF (some k) c' = true ∧ chWF (some k) cs = true := by
      simpa [chWF, Bool.and_eq_true, and_assoc] using hwf
    by_cases hk : k = x
    · subst hk
      simp [findC] at hf
      subst hf
      exact ⟨hw.2.1, hw.1⟩
    · simp [findC, hk] at hf
      have h := findC_WF (some k) cs x c hw.2.2 hf
      refine ⟨h.1, ?_⟩
      have : k < x := by simpa [lbLt] using h.2
      exact lbLt_trans hw.1 this

theorem mem_elemsC : ∀ (lb : Option Nat) (cs : Children), chWF lb cs = true →
    ∀ (x : Nat) (v : List Nat),
      (x :: v) ∈ elemsC cs [] ↔ ∃ c, findC x cs = some c ∧ v ∈ elemsN c []
  | lb, .nil, _, x, v => by simp [elemsC, findC]
  | lb, .cons k c' cs, hwf, x, v => by
    have hw : lbLt lb k = true ∧ nodeWF (some k) c' = true ∧ chWF (some k) cs = true := by
      simpa [chWF, Bool.and_eq_true, and_assoc] using hwf
    rw [elemsC_cons]
    by_cases hk : k = x
    · subst hk
      simp only [findC, if_pos rfl, List.mem_append]
      constructor
      · rintro (hl | hr)
        · rcases List.mem_map.mp hl with ⟨u, hu, he⟩
          have huv : u = v := by injection he
          subst huv
          exact ⟨c', by simp, hu⟩
        · exfalso
          have h := elemsC_bound (some k) cs hw.2.2 _ hr
          have : lbLt (some k) k = true := h.2.2 k (by simp)
          simp [lbLt] at this
      · rintro ⟨c, hc, hv⟩
        obtain rfl : c' = c := by simpa using hc
        exact Or.inl (List.mem_map.mpr ⟨v, hv, rfl⟩)
    · simp only [findC, if_neg hk, List.mem_append]
      rw [← mem_elemsC (some k) cs hw.2.2 x v]
      constructor
      · rintro (hl | hr)
        · exfalso
          rcases List.mem_map.mp hl with ⟨u, _, he⟩
          exact hk ((List.cons.injEq k u x v).mp he).1
        · exact hr
      · exact Or.inr

theorem containsN_mem : ∀ (q : List Nat) (lb : Option Nat) (n : Node),
    nodeWF lb n = true → (containsN n q = true ↔ q ∈ elemsN n [])
  | [], lb, .mk b cs, hwf => by
    have hcs : chWF lb cs = true := by simpa [nodeWF] using hwf
    simp only [containsN, elemsN, List.mem_append]
    constructor
    · intro hb
      subst hb
      simp
    · rintro (hl | hr)
      · cases b
        · simp at hl
        · rfl
      · exfalso
        exact (elemsC_bound lb cs hcs [] hr).1 rfl
  | x :: xs, lb, .mk b cs, hwf => by
    have hcs : chWF lb cs = true := by simpa [nodeWF] using hwf
    have hmem2 : (x :: xs) ∈ elemsN (.mk b cs) [] ↔
        ∃ c, findC x cs = some c ∧ xs ∈ elemsN c [] := by
      rw [elemsN, List.mem_append]
      constructor
      · rintro (hl | hr)
        · exfalso
          cases b <;> simp at hl
        · exact (mem_elemsC lb cs hcs x xs).mp hr
      · intro h
        exact Or.inr ((mem_elemsC lb cs hcs x xs).mpr h)
    rw [hmem2]
    cases hf : findC x cs with
    | none => simp [containsN, hf]
    | some c =>
      have hwc := (findC_WF lb cs x c hcs hf).1
      simp only [containsN, hf, Option.some.injEq]
      rw [containsN_mem xs (some x) c hwc]
      constructor
      · intro h
        exact ⟨c, rfl, h⟩
      · rintro ⟨c2, rfl, hv⟩
        exact hv

/-! ### Lemmas about `_add` -/

theorem findC_addC : ∀ (cs : Children) (x : Nat) (xs : List Nat),
    ∃ c0, findC x (addC cs x xs) = some (addN c0 xs)
  | .nil, x, xs => ⟨.mk false .nil, by simp [addC, findC]⟩
  | .cons k c cs, x, xs => by
    by_cases hk : k = x
    · subst hk
      exact ⟨c, by simp [addC, findC]⟩
    · by_cases hlt : k < x
      · rcases findC_addC cs x xs with ⟨c0, hc0⟩
        exact ⟨c0, by simp [addC, hk, hlt, findC, hc0]⟩
      · exact ⟨.mk false .nil, by simp [addC, hk, hlt, findC]⟩

theorem containsN_addN : ∀ (xs : List Nat) (n : Node), containsN (addN n xs) xs = true
  | [], .mk b cs => by simp [addN, containsN]
  | x :: xs, .mk b cs => by
    rcases findC_addC cs x xs with ⟨c0, hc0⟩
    simp [addN, containsN, hc0, containsN_addN xs c0]

mutual
theorem addN_idem : ∀ (n : Node) (xs : List Nat), addN (addN n xs) xs = addN n xs
  | .mk b cs, [] => by simp [addN]
  | .mk b cs, x :: xs => by
    simp [addN, addC_idem cs x xs]
termination_by _ xs => (xs.length, 0, 0)
theorem addC_idem : ∀ (cs : Children) (x : Nat) (xs : List Nat),
    addC (addC cs x xs) x xs = addC cs x xs
  | .nil, x, xs => by
    simp [addC, addN_idem (.mk false .nil) xs]
  | .cons k c cs, x, xs => by
    by_cases hk : k = x
    · subst hk
      simp [addC, addN_idem c xs]
    · by_cases hlt : k < x
      · simp [addC, hk, hlt, addC_idem cs x xs]
      · simp [addC, hk, hlt, addN_idem (.mk false .nil) xs]
termination_by cs _ xs => (xs.length, 1, sizeOf cs)
end

mutual
theorem addN_WF : ∀ (lb : Option Nat) (n : Node) (xs : List Nat),
    nodeWF lb n = true → List.Chain' (· < ·) xs → (∀ y ∈ xs, lbLt lb y = true) →
    nodeWF lb (addN n xs) = true
  | lb, .mk b cs, [], hwf, _, _ => by simpa [addN, nodeWF] using hwf
  | lb, .mk b cs, x :: xs, hwf, hch, hb => by
    have hcs : chWF lb cs = true := by simpa [nodeWF] using hwf
    simp only [addN, nodeWF]
    exact addC_WF lb cs x xs hcs hch (hb x (by simp))
termination_by _ _ xs => (xs.length, 0, 0)
theorem addC_WF : ∀ (lb : Option Nat) (cs : Children) (x : Nat) (xs : List Nat),
    chWF lb cs = true → List.Chain' (· < ·) (x :: xs) → lbLt lb x = true →
    chWF lb (addC cs x xs) = true
  | lb, .nil, x, xs, _, hch, hx => by
    have h := addN_WF (some x) (.mk false .nil) xs (by simp [nodeWF, chWF]) hch.tail
      (fun y hy => by simpa [lbLt] using chain_lt_mem hch y hy)
    simp [addC, chWF, hx, h]
  | lb, .cons k c cs, x, xs, hwf, hch, hx => by
    have hw : lbLt lb k = true ∧ nodeWF (some k) c = true ∧ chWF (some k) cs = true := by
      simpa [chWF, Bool.and_eq_true, and_assoc] using hwf
    by_cases hk : k = x
    · subst hk
      have h := addN_WF (some k) c xs hw.2.1 hch.tail
        (fun y hy => by simpa [lbLt] using chain_lt_mem hch y hy)
      simp [addC, chWF, hw.1, hw.2.2, h]
    · by_cases hlt : k < x
      · have h := addC_WF (some k) cs x xs hw.2.2 hch (by simpa [lbLt] using hlt)
        simp [addC, hk, hlt, chWF, hw.1, hw.2.1, h]
      · have hxk : x < k := by omega
        have h := addN_WF (some x) (.mk false .nil) xs (by simp [nodeWF, chWF]) hch.tail
          (fun y hy => by simpa [lbLt] using chain_lt_mem hch y hy)
        have hsk : lbLt (some x) k = true := by simpa [lbLt] using hxk
        simp [addC, hk, hlt, chWF, hx, h, hsk, hw.1, hw.2.1, hw.2.2]
termination_by _ cs _ xs => (xs.length, 1, sizeOf cs)
end

/-! ### Lexicographic sortedness of the traversal -/

mutual
theorem elemsN_pw : ∀ (lb : Option Nat) (n : Node), nodeWF lb n = true →
    List.Pairwise (fun a b => lexLt a b = true) (elemsN n [])
  | lb, .mk b cs, hwf => by
    have hcs : chWF lb cs = true := by simpa [nodeWF] using hwf
    rw [elemsN]
    apply List.pairwise_append.mpr
    refine ⟨by cases b <;> simp, elemsC_pw lb cs hcs, ?_⟩
    intro a ha s hs
    have hne := (elemsC_bound lb cs hcs s hs).1
    have ha0 : a = [] := by
      cases b <;> simp at ha
      exact ha
    subst ha0
    cases s with
    | nil => exact absurd rfl hne
    | cons y v => exact lexLt_nil_cons y v
theorem elemsC_pw : ∀ (lb : Option Nat) (cs : Children), chWF lb cs = true →
    List.Pairwise (fun a b => lexLt a b = true) (elemsC cs [])
  | lb, .nil, _ => by simp [elemsC]
  | lb, .cons k c cs, hwf => by
    have hw : lbLt lb k = true ∧ nodeWF (some k) c = true ∧ chWF (some k) cs = true := by
      simpa [chWF, Bool.and_eq_true, and_assoc] using hwf
    rw [elemsC_cons]
    apply List.pairwise_append.mpr
    refine ⟨?_, elemsC_pw (some k) cs hw.2.2, ?_⟩
    · apply List.pairwise_map.mpr
      have := elemsN_pw (some k) c hw.2.1
      exact this.imp fun h => by
        rw [lexLt_cons_same]
        exact h
    · intro a ha s hs
      rcases List.mem_map.mp ha with ⟨u, _, rfl⟩
      have hb := elemsC_bound (some k) cs hw.2.2 s hs
      cases s with
      | nil => exact absurd rfl hb.1
      | cons y v =>
        have : k < y := by simpa [lbLt] using hb.2.2 y (by simp)
        exact lexLt_cons_lt this u v
end

theorem elems_nodup {lb : Option Nat} {n : Node} (h : nodeWF lb n = true) :
    (elemsN n []).Nodup := by
  refine (elemsN_pw lb n h).imp fun hl => ?_
  intro he
  subst he
  rw [lexLt_irrefl] at hl
  cases hl

theorem count_one_of_mem : ∀ {l : List (List Nat)} {a : List Nat},
    l.Nodup → a ∈ l → l.count a = 1
  | [], a, _, h => absurd h (by simp)
  | b :: l, a, nd, h => by
    rcases List.mem_cons.mp h with rfl | hl
    · rw [List.count_cons_self, List.count_eq_zero_of_not_mem (List.nodup_cons.mp nd).1]
    · have hne : a ≠ b := fun he => (List.nodup_cons.mp nd).1 (he ▸ hl)
      rw [List.count_cons_of_ne hne, count_one_of_mem (List.nodup_cons.mp nd).2 hl]

/-- A set just added is stored exactly once. -/
theorem count_elems_addN {t : Node} {s : List Nat} (hwf : nodeWF none t = true)
    (hs : List.Chain' (· < ·) s) :
    (elemsN (addN t s) []).count s = 1 := by
  have hwf2 : nodeWF none (addN t s) = true :=
    addN_WF none t s hwf hs (fun y _ => by simp [lbLt])
  have hmem : s ∈ elemsN (addN t s) [] :=
    (containsN_mem s none (addN t s) hwf2).mp (containsN_addN s t)
  exact count_one_of_mem (elems_nodup hwf2) hmem

/-! ### Correctness of `_hassubset` -/

theorem subOf_iff {s q : List Nat} : subOf s q = true ↔ ∀ y ∈ s, y ∈ q := by
  simp [subOf]

theorem mem_nil_elemsN {lb : Option Nat} {b : Bool} {cs : Children}
    (hwf : nodeWF lb (.mk b cs) = true) :
    ([] : List Nat) ∈ elemsN (.mk b cs) [] ↔ b = true := by
  have hcs : chWF lb cs = true := by simpa [nodeWF] using hwf
  rw [elemsN, List.mem_append]
  constructor
  · rintro (hl | hr)
    · cases b
      · simp at hl
      · rfl
    · exact absurd rfl (elemsC_bound lb cs hcs [] hr).1
  · intro hb
    subst hb
    simp

theorem hassubsetN_iff : ∀ (q : List Nat) (lb : Option Nat) (n : Node),
    nodeWF lb n = true → List.Chain' (· < ·) q →
    (hassubsetN n q = true ↔ ∃ s ∈ elemsN n [], subOf s q = true)
  | [], lb, .mk b cs, hwf, _ => by
    simp only [hassubsetN, Node.flag]
    constructor
    · intro hb
      exact ⟨[], (mem_nil_elemsN hwf).mpr hb, rfl⟩
    · rintro ⟨s, hs, hsub⟩
      have hs0 : s = [] := by
        cases s with
        | nil => rfl
        | cons y v => simp [subOf] at hsub
      subst hs0
      exact (mem_nil_elemsN hwf).mp hs
  | x :: rest, lb, .mk b cs, hwf, hq => by
    have hcs : chWF lb cs = true := by simpa [nodeWF] using hwf
    cases b with
    | true =>
      simp only [hassubsetN, Node.flag, if_pos rfl]
      exact iff_of_true rfl ⟨[], (mem_nil_elemsN hwf).mpr rfl, rfl⟩
    | false =>
      have helems : elemsN (.mk false cs) [] = elemsC cs [] := by
        rw [elemsN]
        simp
      have hunf : hassubsetN (.mk false cs) (x :: rest) =
          ((match findC x cs with
            | some c => hassubsetN c rest
            | none => false) || hassubsetN (.mk false cs) rest) := by
        simp [hassubsetN, Node.flag, Node.kids]
      rw [hunf, Bool.or_eq_true, helems]
      constructor
      · rintro (hl | hr)
        · cases hf : findC x cs with
          | none => rw [hf] at hl; simp at hl
          | some c =>
            rw [hf] at hl
            simp only at hl
            have hwc := (findC_WF lb cs x c hcs hf).1
            rcases (hassubsetN_iff rest (some x) c hwc hq.tail).mp hl with ⟨v, hv, hsub⟩
            refine ⟨x :: v, (mem_elemsC lb cs hcs x v).mpr ⟨c, hf, hv⟩, ?_⟩
            rw [subOf_iff]
            intro y hy
            rcases List.mem_cons.mp hy with rfl | hy'
            · simp
            · exact List.mem_cons_of_mem x (subOf_iff.mp hsub y hy')
        · rcases (hassubsetN_iff rest lb (.mk false cs) hwf hq.tail).mp hr with ⟨s, hs, hsub⟩
          rw [helems] at hs
          refine ⟨s, hs, ?_⟩
          rw [subOf_iff]
          exact fun y hy => List.mem_cons_of_mem x (subOf_iff.mp hsub y hy)
      · rintro ⟨s, hs, hsub⟩
        cases s with
        | nil => exact absurd rfl (elemsC_bound lb cs hcs [] hs).1
        | cons k v =>
          rcases (mem_elemsC lb cs hcs k v).mp hs with ⟨c, hf, hv⟩
          have hwc := findC_WF lb cs k c hcs hf
          have hvb := elemsN_bound (some k) c hwc.1
          by_cases hkx : k = x
          · subst hkx
            apply Or.inl
            rw [hf]
            simp only
            apply (hassubsetN_iff rest (some k) c hwc.1 hq.tail).mpr
            refine ⟨v, hv, subOf_iff.mpr fun y hy => ?_⟩
            have hyk : k < y := by simpa [lbLt] using (hvb v hv).2 y hy
            have hyq : y ∈ k :: rest := subOf_iff.mp hsub y (List.mem_cons_of_mem k hy)
            rcases List.mem_cons.mp hyq with rfl | h
            · omega
            · exact h
          · apply Or.inr
            apply (hassubsetN_iff rest lb (.mk false cs) hwf hq.tail).mpr
            rw [helems]
            refine ⟨k :: v, hs, subOf_iff.mpr fun y hy => ?_⟩
            have hkq : k ∈ x :: rest := subOf_iff.mp hsub k (by simp)
            have hkrest : k ∈ rest := by
              rcases List.mem_cons.mp hkq with rfl | h
              · exact absurd rfl hkx
              · exact h
            have hxk : x < k := chain_lt_mem hq k hkrest
            have hyk : k ≤ y := by
              rcases List.mem_cons.mp hy with rfl | hy'
              · omega
              · have : k < y := by simpa [lbLt] using (hvb v hv).2 y hy'
                omega
            have hyq : y ∈ x :: rest := subOf_iff.mp hsub y hy
            rcases List.mem_cons.mp hyq with rfl | h
            · omega
            · exact h

/-! ### Correctness of `_itersupersets` -/

theorem bool_eq_of_iff {a b : Bool} (h : a = true ↔ b = true) : a = b := by
  cases a <;> cases b <;> simp_all

theorem filter_map_swap (f : List Nat → List Nat) (p : List Nat → Bool) :
    ∀ l : List (List Nat), (l.map f).filter p = (l.filter fun a => p (f a)).map f
  | [] => rfl
  | a :: l => by
    by_cases h : p (f a) = true
    · simp [h, filter_map_swap f p l]
    · rw [Bool.not_eq_true] at h
      simp [h, filter_map_swap f p l]

theorem supOf_iff {s q : List Nat} : supOf s q = true ↔ ∀ y ∈ q, y ∈ s := by
  simp [supOf]

theorem supOf_head_not {s : List Nat} {x : Nat} (rest : List Nat) (h : x ∉ s) :
    supOf s (x :: rest) = false := by
  simp [supOf, h]

mutual
theorem itersupN_nil : ∀ (n : Node) (path : List Nat), itersupN n [] path = elemsN n path
  | .mk b cs, path => by
    rw [itersupN, elemsN, itersupAll_eq cs path]
    cases b <;> simp
theorem itersupAll_eq : ∀ (cs : Children) (path : List Nat),
    itersupAll cs path = elemsC cs path
  | .nil, path => by rw [itersupAll, elemsC]
  | .cons k c cs, path => by
    rw [itersupAll, elemsC, itersupN_nil c (path ++ [k]), itersupAll_eq cs path]
end

/-- The pruning `break`: once every remaining child key exceeds the current
query element, the loop of `_itersupersets` yields nothing. -/
theorem itersupC_gt (cs : Children) (x : Nat) (rest path : List Nat)
    (hwf : chWF (some x) cs = true) : itersupC cs x rest path = [] := by
  cases cs with
  | nil => rw [itersupC]
  | cons k c cs =>
    have hxk : x < k := by
      have h : lbLt (some x) k = true := by
        simp only [chWF, Bool.and_eq_true, and_assoc] at hwf
        exact hwf.1
      simpa [lbLt] using h
    rw [itersupC, if_pos hxk]

mutual
theorem itersupN_eq : ∀ (lb : Option Nat) (n : Node) (q path : List Nat),
    nodeWF lb n = true → List.Chain' (· < ·) q → (∀ y ∈ q, lbLt lb y = true) →
    itersupN n q path = ((elemsN n []).filter (fun s => supOf s q)).map (path ++ ·)
  | lb, .mk b cs, [], path, hwf, _, _ => by
    rw [itersupN_nil, elemsN_factor]
    congr 1
    have : ∀ s ∈ elemsN (.mk b cs) [], supOf s [] = true := fun s _ => rfl
    rw [List.filter_congr this]
    simp
  | lb, .mk b cs, x :: rest, path, hwf, hch, hb => by
    have hcs : chWF lb cs = true := by simpa [nodeWF] using hwf
    rw [itersupN, elemsN]
    rw [itersupC_eq lb cs x rest path hcs hch hb]
    rw [List.filter_append, List.map_append]
    have h1 : (if b ∧ x :: rest = [] then [path] else []) = [] := by simp
    have h2 : ((if b then [([] : List Nat)] else []).filter
        (fun s => supOf s (x :: rest))).map (path ++ ·) = [] := by
      cases b <;> simp [supOf]
    rw [h1, h2]
theorem itersupC_eq : ∀ (lb : Option Nat) (cs : Children) (x : Nat) (rest path : List Nat),
    chWF lb cs = true → List.Chain' (· < ·) (x :: rest) →
    (∀ y ∈ x :: rest, lbLt lb y = true) →
    itersupC cs x rest path =
      ((elemsC cs []).filter (fun s => supOf s (x :: rest))).map (path ++ ·)
  | lb, .nil, x, rest, path, _, _, _ => by
    rw [itersupC, elemsC]
    rfl
  | lb, .cons k c cs, x, rest, path, hwf, hch, hb => by
    have hw : lbLt lb k = true ∧ nodeWF (some k) c = true ∧ chWF (some k) cs = true := by
      simpa [chWF, Bool.and_eq_true, and_assoc] using hwf
    have hrest : ∀ y ∈ rest, x < y := chain_lt_mem hch
    rw [elemsC_cons, List.filter_append, List.map_append]
    by_cases hxk : x < k
    · rw [itersupC, if_pos hxk]
      have hreg : ((elemsN c []).map (k :: ·)).filter (fun s => supOf s (x :: rest)) = [] := by
        rw [List.filter_eq_nil_iff]
        intro s hs
        rcases List.mem_map.mp hs with ⟨v, hv, rfl⟩
        have hvb := (elemsN_bound (some k) c hw.2.1 v hv).2
        have hx : x ∉ k :: v := by
          intro hmem
          rcases List.mem_cons.mp hmem with rfl | hx'
          · omega
          · have : k < x := by simpa [lbLt] using hvb x hx'
            omega
        simp [supOf_head_not rest hx]
      have hsib : (elemsC cs []).filter (fun s => supOf s (x :: rest)) = [] := by
        rw [List.filter_eq_nil_iff]
        intro s hs
        have hsb := elemsC_bound (some k) cs hw.2.2 s hs
        have hx : x ∉ s := by
          intro hmem
          have : k < x := by simpa [lbLt] using hsb.2.2 x hmem
          omega
        simp [supOf_head_not rest hx]
      rw [hreg, hsib]
      rfl
    · by_cases hkx : k = x
      · subst hkx
        rw [itersupC, if_neg hxk, if_pos rfl]
        rw [itersupC_gt cs k rest path hw.2.2]
        have hsib : (elemsC cs []).filter (fun s => supOf s (k :: rest)) = [] := by
          rw [List.filter_eq_nil_iff]
          intro s hs
          have hsb := elemsC_bound (some k) cs hw.2.2 s hs
          have hx : k ∉ s := by
            intro hmem
            have : k < k := by simpa [lbLt] using hsb.2.2 k hmem
            omega
          simp [supOf_head_not rest hx]
        rw [hsib]
        have hreg : ((elemsN c []).map (k :: ·)).filter (fun s => supOf s (k :: rest)) =
            ((elemsN c []).filter (fun v => supOf v rest)).map (k :: ·) := by
          rw [filter_map_swap]
          congr 1
          apply List.filter_congr
          intro v _
          apply bool_eq_of_iff
          rw [supOf_iff, supOf_iff]
          constructor
          · intro h y hy
            have hyk : k < y := hrest y hy
            rcases List.mem_cons.mp (h y (List.mem_cons_of_mem k hy)) with rfl | h'
            · omega
            · exact h'
          · intro h y hy
            rcases List.mem_cons.mp hy with rfl | hy'
            · simp
            · exact List.mem_cons_of_mem k (h y hy')
        rw [hreg]
        cases hr : rest with
        | nil =>
          rw [itersupN_nil]
          rw [elemsN_factor c (path ++ [k])]
          have : ∀ v ∈ elemsN c [], supOf v ([] : List Nat) = true := fun v _ => rfl
          rw [List.filter_congr this, List.filter_eq_self.mpr (fun a _ => rfl)]
          simp only [List.map_map, List.map_nil, List.append_nil]
          apply List.map_congr_left
          intro v _
          simp [Function.comp]
        | cons y rest' =>
          rw [← hr]
          rw [itersupN_eq (some k) c rest (path ++ [k]) hw.2.1 hch.tail
            (fun z hz => by simpa [lbLt] using hrest z hz)]
          simp only [List.map_map, List.map_nil, List.append_nil]
          apply List.map_congr_left
          intro v _
          simp [Function.comp]
      · have hklt : k < x := by omega
        rw [itersupC, if_neg hxk, if_neg hkx]
        have hb2 : ∀ y ∈ x :: rest, lbLt (some k) y = true := by
          intro y hy
          rcases List.mem_cons.mp hy with rfl | hy'
          · simpa [lbLt] using hklt
          · have : x < y := hrest y hy'
            simp [lbLt]
            omega
        rw [itersupN_eq (some k) c (x :: rest) (path ++ [k]) hw.2.1 hch hb2]
        rw [itersupC_eq (some k) cs x rest path hw.2.2 hch hb2]
        have hreg : ((elemsN c []).map (k :: ·)).filter (fun s => supOf s (x :: rest)) =
            ((elemsN c []).filter (fun v => supOf v (x :: rest))).map (k :: ·) := by
          rw [filter_map_swap]
          congr 1
          apply List.filter_congr
          intro v _
          apply bool_eq_of_iff
          rw [supOf_iff, supOf_iff]
          constructor
          · intro h y hy
            have hyk : k < y := by
              have := hb2 y hy
              simpa [lbLt] using this
            rcases List.mem_cons.mp (h y hy) with rfl | h'
            · omega
            · exact h'
          · intro h y hy
            exact List.mem_cons_of_mem k (h y hy)
        rw [hreg]
        simp only [List.map_map]
        congr 1
        apply List.map_congr_left
        intro v _
        simp [Function.comp]
end

/-! ### Lemmas about `SetTrieMap` -/

mutual
theorem eraseN_assignN : ∀ (t : NodeM V) (xs : List Nat) (v : V),
    eraseN (assignN t xs v) = addN (eraseN t) xs
  | .mk b w cs, [], v => by simp [assignN, eraseN, addN]
  | .mk b w cs, x :: xs, v => by
    simp [assignN, eraseN, addN, eraseC_assignC cs x xs v]
termination_by _ xs _ => (xs.length, 0, 0)
theorem eraseC_assignC : ∀ (cs : ChildrenM V) (x : Nat) (xs : List Nat) (v : V),
    eraseC (assignC cs x xs v) = addC (eraseC cs) x xs
  | .nil, x, xs, v => by
    simp [assignC, eraseN, eraseC, addC, eraseN_assignN (.mk false none .nil) xs v]
  | .cons k c cs, x, xs, v => by
    by_cases hk : k = x
    · subst hk
      simp [assignC, eraseC, addC, eraseN_assignN c xs v]
    · by_cases hlt : k < x
      · simp [assignC, eraseC, addC, hk, hlt, eraseC_assignC cs x xs v]
      · simp [assignC, eraseN, eraseC, addC, hk, hlt,
          eraseN_assignN (.mk false none .nil) xs v]
termination_by cs _ xs _ => (xs.length, 1, sizeOf cs)
end

mutual
theorem keysN_erase : ∀ (t : NodeM V) (path : List Nat),
    keysN t path = elemsN (eraseN t) path
  | .mk b w cs, path => by
    simp [keysN, eraseN, elemsN, keysC_erase cs path]
theorem keysC_erase : ∀ (cs : ChildrenM V) (path : List Nat),
    keysC cs path = elemsC (eraseC cs) path
  | .nil, path => by simp [keysC, eraseC, elemsC]
  | .cons k c cs, path => by
    simp [keysC, eraseC, elemsC, keysN_erase c (path ++ [k]), keysC_erase cs path]
end

theorem findCM_assignC : ∀ (cs : ChildrenM V) (x : Nat) (xs : List Nat) (v : V),
    ∃ c0, findCM x (assignC cs x xs v) = some (assignN c0 xs v)
  | .nil, x, xs, v => ⟨.mk false none .nil, by simp [assignC, findCM]⟩
  | .cons k c cs, x, xs, v => by
    by_cases hk : k = x
    · subst hk
      exact ⟨c, by simp [assignC, findCM]⟩
    · by_cases hlt : k < x
      · rcases findCM_assignC cs x xs v with ⟨c0, hc0⟩
        exact ⟨c0, by simp [assignC, hk, hlt, findCM, hc0]⟩
      · exact ⟨.mk false none .nil, by simp [assignC, hk, hlt, findCM]⟩

theorem getN_assignN : ∀ (xs : List Nat) (t : NodeM V) (v d : V),
    getN (assignN t xs v) xs d = v
  | [], .mk b w cs, v, d => by simp [assignN, getN]
  | x :: xs, .mk b w cs, v, d => by
    rcases findCM_assignC cs x xs v with ⟨c0, hc0⟩
    simp [assignN, getN, hc0, getN_assignN xs c0 v d]

mutual
theorem assignN_twice : ∀ (t : NodeM V) (xs : List Nat) (v1 v2 : V),
    assignN (assignN t xs v1) xs v2 = assignN t xs v2
  | .mk b w cs, [], v1, v2 => by simp [assignN]
  | .mk b w cs, x :: xs, v1, v2 => by
    simp [assignN, assignC_twice cs x xs v1 v2]
termination_by _ xs _ _ => (xs.length, 0, 0)
theorem assignC_twice : ∀ (cs : ChildrenM V) (x : Nat) (xs : List Nat) (v1 v2 : V),
    assignC (assignC cs x xs v1) x xs v2 = assignC cs x xs v2
  | .nil, x, xs, v1, v2 => by
    simp [assignC, assignN_twice (.mk false none .nil) xs v1 v2]
  | .cons k c cs, x, xs, v1, v2 => by
    by_cases hk : k = x
    · subst hk
      simp [assignC, assignN_twice c xs v1 v2]
    · by_cases hlt : k < x
      · simp [assignC, hk, hlt, assignC_twice cs x xs v1 v2]
      · simp [assignC, hk, hlt, assignN_twice (.mk false none .nil) xs v1 v2]
termination_by cs _ xs _ _ => (xs.length, 1, sizeOf cs)
end

/-! ### The state-passing queries return the trie unchanged -/

mutual
theorem containsSt_state : ∀ (n : Node) (q : List Nat), (containsSt n q).2 = n
  | .mk b cs, [] => rfl
  | .mk b cs, x :: xs => by
    simp [containsSt, containsChSt_state cs x xs]
theorem containsChSt_state : ∀ (cs : Children) (x : Nat) (xs : List Nat),
    (containsChSt cs x xs).2 = cs
  | .nil, _, _ => rfl
  | .cons k c cs, x, xs => by
    by_cases hk : k = x
    · simp [containsChSt, hk, containsSt_state c xs]
    · simp [containsChSt, hk, containsChSt_state cs x xs]
end

mutual
theorem hassupSt_state : ∀ (n : Node) (q : List Nat), (hassupSt n q).2 = n
  | .mk b cs, [] => rfl
  | .mk b cs, x :: rest => by
    simp [hassupSt, hssChSt_state cs x rest]
theorem hssChSt_state : ∀ (cs : Children) (x : Nat) (rest : List Nat),
    (hssChSt cs x rest).2 = cs
  | .nil, _, _ => rfl
  | .cons k c cs, x, rest => by
    simp only [hssChSt]
    split
    · rfl
    · split
      · split
        · simp [hassupSt_state c rest]
        · simp [hassupSt_state c rest, hssChSt_state cs x rest]
      · split
        · simp [hassupSt_state c (x :: rest)]
        · simp [hassupSt_state c (x :: rest), hssChSt_state cs x rest]
end

mutual
theorem hassubSt_state : ∀ (q : List Nat) (n : Node), (hassubSt n q).2 = n
  | [], n => by simp [hassubSt]
  | x :: rest, .mk b cs => by
    simp only [hassubSt]
    split
    · rfl
    · simp only [hassubChSt_state cs x rest]
      exact hassubSt_state rest (.mk b cs)
termination_by q _ => (q.length, 0, 0)
theorem hassubChSt_state : ∀ (cs : Children) (x : Nat) (rest : List Nat),
    (hassubChSt cs x rest).2 = cs
  | .nil, _, _ => by simp [hassubChSt]
  | .cons k c cs, x, rest => by
    by_cases hk : k = x
    · simp [hassubChSt, hk, hassubSt_state rest c]
    · simp [hassubChSt, hk, hassubChSt_state cs x rest]
termination_by cs _ rest => (rest.length, 1, sizeOf cs)
end

mutual
theorem iterSupSt_state : ∀ (n : Node) (q path : List Nat), (iterSupSt n q path).2 = n
  | .mk b cs, [], path => by
    simp [iterSupSt, iterSupAllSt_state cs path]
  | .mk b cs, x :: rest, path => by
    simp [iterSupSt, iterSupCSt_state cs x rest path]
theorem iterSupAllSt_state : ∀ (cs : Children) (path : List Nat),
    (iterSupAllSt cs path).2 = cs
  | .nil, _ => rfl
  | .cons k c cs, path => by
    simp [iterSupAllSt, iterSupSt_state c [] (path ++ [k]), iterSupAllSt_state cs path]
theorem iterSupCSt_state : ∀ (cs : Children) (x : Nat) (rest path : List Nat),
    (iterSupCSt cs x rest path).2 = cs
  | .nil, _, _, _ => rfl
  | .cons k c cs, x, rest, path => by
    simp only [iterSupCSt]
    split
    · rfl
    · split
      · simp [iterSupSt_state c rest (path ++ [k]), iterSupCSt_state cs x rest path]
      · simp [iterSupSt_state c (x :: rest) (path ++ [k]), iterSupCSt_state cs x rest path]
end

mutual
theorem iterSubSt_state : ∀ (n : Node) (q path : List Nat), (iterSubSt n q path).2 = n
  | .mk b cs, q, path => by
    simp [iterSubSt, iterSubCSt_state cs q path]
theorem iterSubCSt_state : ∀ (cs : Children) (q path : List Nat),
    (iterSubCSt cs q path).2 = cs
  | .nil, _, _ => by simp [iterSubCSt]
  | .cons k c cs, [], _ => by simp [iterSubCSt]
  | .cons k c cs, x :: rest, path => by
    simp only [iterSubCSt]
    split
    · simp [iterSubSt_state c rest (path ++ [k]), iterSubCSt_state cs (x :: rest) path]
    · exact scanSt_state k c cs rest path
theorem scanSt_state : ∀ (k : Nat) (c : Node) (cs : Children) (q path : List Nat),
    (scanSt k c cs q path).2 = Children.cons k c cs
  | k, c, cs, [], path => by
    simp [scanSt, iterSubCSt_state cs [] path]
  | k, c, cs, y :: rest, path => by
    simp only [scanSt]
    split
    · simp [iterSubCSt_state cs (y :: rest) path]
    · split
      · simp [iterSubSt_state c (y :: rest) (path ++ [k]),
          iterSubCSt_state cs (y :: rest) path]
      · exact scanSt_state k c cs rest path
end

mutual
theorem iterSt_state : ∀ (n : Node) (path : List Nat), (iterSt n path).2 = n
  | .mk b cs, path => by
    simp [iterSt, iterChSt_state cs path]
theorem iterChSt_state : ∀ (cs : Children) (path : List Nat), (iterChSt cs path).2 = cs
  | .nil, _ => rfl
  | .cons k c cs, path => by
    simp [iterChSt, iterSt_state c (path ++ [k]), iterChSt_state cs path]
end

mutual
theorem getSt_state : ∀ (t : NodeM V) (q : List Nat) (d : V), (getSt t q d).2 = t
  | .mk b w cs, [], d => rfl
  | .mk b w cs, x :: xs, d => by
    simp [getSt, getChSt_state cs x xs d]
theorem getChSt_state : ∀ (cs : ChildrenM V) (x : Nat) (xs : List Nat) (d : V),
    (getChSt cs x xs d).2 = cs
  | .nil, _, _, _ => rfl
  | .cons k c cs, x, xs, d => by
    by_cases hk : k = x
    · simp [getChSt, hk, getSt_state c xs d]
    · simp [getChSt, hk, getChSt_state cs x xs d]
end

/-! ### Iterated `add` -/

theorem add_add (t : Node) (S : List Nat) : add (add t S) S = add t S := by
  rw [add, add, addN_idem]

theorem add_iterate (S : List Nat) : ∀ (m : Nat) (t : Node),
    (fun u => add u S)^[m + 1] t = add t S
  | 0, t => by simp
  | m + 1, t => by
    rw [Function.iterate_succ_apply]
    show (fun u => add u S)^[m + 1] (add t S) = add t S
    rw [add_iterate S m (add t S), add_add]

/-! ### The claims -/

/-- C1 (code_bug evaluation): on a trie with no stored sets, `hassuperset`
of the empty query returns `True` although no stored set exists — `aslist`
is empty and even `supersets({})` is empty.  The claim, the method's own
docstring, and the reference test `assertFalse(SetTrie().hassuperset({}))`
all require `False` here. -/
theorem hassuperset_empty_trie_bug :
    hassuperset emptyTrie [] = true ∧ aslist emptyTrie = [] ∧
      supersets emptyTrie [] = [] :=
  ⟨rfl, rfl, rfl⟩

/-- C2 (code_bug evaluation): `itersubsets` misses stored subsets.  On the
canonical fixture of the reference test suite, the test asserts
`subsets({1,3,5}) == [{1,3},{1,3,5}]` and the brute-force filter of the
stored sets agrees, but `_itersubsets` yields nothing — its child loop
unconditionally advances the query index when a child key mismatches, so a
query element skipped past a smaller child key is lost for later siblings.
`hassubset` on the same query returns `True`, contradicting `itersubsets`. -/
theorem itersubsets_missing_bug :
    subsets fixtureTrie [1, 3, 5] = [] ∧
      (aslist fixtureTrie).filter (fun s => subOf s [1, 3, 5]) =
        [[1, 3], [1, 3, 5]] ∧
      hassubset fixtureTrie [1, 3, 5] = true := by
  refine ⟨?_, ?_, ?_⟩
  · simp [subsets, fixtureTrie, add, emptyTrie, sortList, insertSorted, addN, addC,
      itersubN, itersubC, scanC]
  · simp [aslist, fixtureTrie, add, emptyTrie, sortList, insertSorted, addN, addC,
      elemsN, elemsC, subOf]
  · simp [hassubset, fixtureTrie, add, emptyTrie, sortList, insertSorted, addN, addC,
      hassubsetN, findC, Node.flag, Node.kids]

/-- C3: for every well-formed (API-reachable) trie and every set query, the
list produced by `itersupersets`/`supersets` is exactly the brute-force
filter of the stored sets by the superset test — the same stored sets, each
exactly once, in traversal order. -/
theorem supersets_eq_filter (t : Node) (q : List Nat)
    (hwf : nodeWF none t = true) (hq : List.Chain' (· < ·) q) :
    supersets t q = (aslist t).filter (fun s => supOf s q) := by
  rw [supersets, sortList_of_chain q hq]
  simp only [aslist]
  rw [itersupN_eq none t q [] hwf hq (fun y _ => rfl)]
  simp

/-- Witness for C3 at the canonical fixture with query `{3,5}`. -/
theorem supersets_eq_filter_witness :
    nodeWF none fixtureTrie = true ∧ List.Chain' (· < ·) [3, 5] ∧
      supersets fixtureTrie [3, 5] =
        (aslist fixtureTrie).filter (fun s => supOf s [3, 5]) :=
  ⟨by simp [nodeWF, chWF, fixtureTrie, add, emptyTrie, sortList, insertSorted, addN, addC,
      lbLt],
    by simp,
    supersets_eq_filter fixtureTrie [3, 5]
      (by simp [nodeWF, chWF, fixtureTrie, add, emptyTrie, sortList, insertSorted, addN,
        addC, lbLt])
      (by simp)⟩

/-- C4: for every well-formed trie and every set query, `hassubset(Q)` is
`True` iff at least one stored set is a subset of `Q` by the brute-force
test (so `True` for every query once the empty set is stored, and `False`
on a trie with no stored sets). -/
theorem hassubset_iff_brute (t : Node) (q : List Nat)
    (hwf : nodeWF none t = true) (hq : List.Chain' (· < ·) q) :
    (hassubset t q = true ↔ ∃ s ∈ aslist t, subOf s q = true) := by
  rw [hassubset, sortList_of_chain q hq]
  simp only [aslist]
  exact hassubsetN_iff q none t hwf hq

/-- Witness for C4 at the canonical fixture with query `{1,2,3}`. -/
theorem hassubset_iff_brute_witness :
    nodeWF none fixtureTrie = true ∧ List.Chain' (· < ·) [1, 2, 3] ∧
      (hassubset fixtureTrie [1, 2, 3] = true ↔
        ∃ s ∈ aslist fixtureTrie, subOf s [1, 2, 3] = true) :=
  ⟨by simp [nodeWF, chWF, fixtureTrie, add, emptyTrie, sortList, insertSorted, addN, addC,
      lbLt],
    by simp,
    hassubset_iff_brute fixtureTrie [1, 2, 3]
      (by simp [nodeWF, chWF, fixtureTrie, add, emptyTrie, sortList, insertSorted, addN,
        addC, lbLt])
      (by simp)⟩

/-- C5 (code_bug evaluation): set arguments are not de-duplicated:
`add([0,0])` stores the two-node chain `0 → 0` rather than the set `{0}`,
so `contains({0})` is `False` afterwards (while after `add({0})` it is
`True`), and on the query side `hassuperset([0,0])` is `False` even though
`{0}` is stored.  The source carries a matching TODO
("convert it to a set first to collapse multiply existing elements"). -/
theorem add_duplicates_bug :
    contains (add emptyTrie [0, 0]) [0] = false ∧
      contains (add emptyTrie [0]) [0] = true ∧
      aslist (add emptyTrie [0, 0]) = [[0, 0]] ∧
      hassuperset (add emptyTrie [0]) [0, 0] = false := by
  refine ⟨?_, ?_, ?_, ?_⟩
  · simp [contains, add, emptyTrie, sortList, insertSorted, addN, addC, containsN, findC]
  · simp [contains, add, emptyTrie, sortList, insertSorted, addN, addC, containsN, findC]
  · simp [aslist, add, emptyTrie, sortList, insertSorted, addN, addC, elemsN, elemsC]
  · simp [hassuperset, add, emptyTrie, sortList, insertSorted, addN, addC,
      hassupersetN, hssCh]

/-- C6: for every well-formed trie, repeated `add(S)` (any number `n ≥ 1` of
times) leaves `contains(S)` true and `S` stored exactly once in `aslist()`:
`add` is idempotent for the plain container. -/
theorem add_repeat_idempotent (t : Node) (S : List Nat) (n : Nat)
    (hwf : nodeWF none t = true) (hS : List.Chain' (· < ·) S) (hn : 1 ≤ n) :
    contains ((fun u => add u S)^[n] t) S = true ∧
      (aslist ((fun u => add u S)^[n] t)).count S = 1 := by
  obtain ⟨m, rfl⟩ : ∃ m, n = m + 1 := ⟨n - 1, by omega⟩
  rw [add_iterate S m t]
  have hsS : sortList S = S := sortList_of_chain S hS
  constructor
  · rw [contains, add, hsS]
    exact containsN_addN S t
  · rw [add, hsS]
    simp only [aslist]
    exact count_elems_addN hwf hS

/-- Witness for C6: adding `{1,2}` twice to an empty trie. -/
theorem add_repeat_idempotent_witness :
    nodeWF none emptyTrie = true ∧ List.Chain' (· < ·) [1, 2] ∧ 1 ≤ 2 ∧
      (contains ((fun u => add u [1, 2])^[2] emptyTrie) [1, 2] = true ∧
        (aslist ((fun u => add u [1, 2])^[2] emptyTrie)).count [1, 2] = 1) :=
  ⟨by simp [nodeWF, chWF, emptyTrie], by simp, by decide,
    add_repeat_idempotent emptyTrie [1, 2] 2 (by simp [nodeWF, chWF, emptyTrie]) (by simp)
      (by decide)⟩

/-- C7: for every well-formed trie, `aslist()` (direct iteration) emits the
stored sets in strictly increasing lexicographic order of their ascending
element sequences, and each emitted sequence is itself strictly
ascending. -/
theorem aslist_sorted (t : Node) (hwf : nodeWF none t = true) :
    List.Pairwise (fun a b => lexLt a b = true) (aslist t) ∧
      ∀ s ∈ aslist t, List.Chain' (· < ·) s := by
  simp only [aslist]
  exact ⟨elemsN_pw none t hwf, fun s hs => (elemsN_bound none t hwf s hs).1⟩

/-- Witness for C7 at the canonical fixture. -/
theorem aslist_sorted_witness :
    nodeWF none fixtureTrie = true ∧
      (List.Pairwise (fun a b => lexLt a b = true) (aslist fixtureTrie) ∧
        ∀ s ∈ aslist fixtureTrie, List.Chain' (· < ·) s) :=
  ⟨by simp [nodeWF, chWF, fixtureTrie, add, emptyTrie, sortList, insertSorted, addN, addC,
      lbLt],
    aslist_sorted fixtureTrie
      (by simp [nodeWF, chWF, fixtureTrie, add, emptyTrie, sortList, insertSorted, addN,
        addC, lbLt])⟩

/-- C8: map overwrite semantics: after `assign(K, v1); assign(K, v2)` the
lookup `get(K)` returns `v2` (the earlier value is not retained), and `K`
occurs exactly once in the key enumeration. -/
theorem assign_overwrite {V : Type} (t : NodeM V) (K : List Nat) (v1 v2 d : V)
    (hwf : nodeWF none (eraseN t) = true) (hK : List.Chain' (· < ·) K) :
    get (assign (assign t K v1) K v2) K d = v2 ∧
      (keys (assign (assign t K v1) K v2)).count K = 1 := by
  have hsK : sortList K = K := sortList_of_chain K hK
  rw [assign, assign, get, keys, hsK, assignN_twice t K v1 v2]
  constructor
  · exact getN_assignN K t v2 d
  · rw [keysN_erase, eraseN_assignN]
    exact count_elems_addN hwf hK

/-- Witness for C8: assigning `{1,3} ↦ 10` then `{1,3} ↦ 20`. -/
theorem assign_overwrite_witness :
    nodeWF none (eraseN (emptyMap Nat)) = true ∧ List.Chain' (· < ·) [1, 3] ∧
      (get (assign (assign (emptyMap Nat) [1, 3] 10) [1, 3] 20) [1, 3] 0 = 20 ∧
        (keys (assign (assign (emptyMap Nat) [1, 3] 10) [1, 3] 20)).count [1, 3] = 1) :=
  ⟨by simp [nodeWF, chWF, eraseN, eraseC, emptyMap], by simp,
    assign_overwrite (emptyMap Nat) [1, 3] 10 20 0
      (by simp [nodeWF, chWF, eraseN, eraseC, emptyMap]) (by simp)⟩

/-- C9: every query operation (`contains`, `get`, `hassuperset`,
`hassubset`, `itersupersets`, `itersubsets`, iteration) leaves the trie
unchanged: in the state-passing embedding of each, the tree reassembled
from every node the query touches is the input tree — no node is created,
destroyed, or modified. -/
theorem queries_leave_trie_unchanged :
    (∀ (t : Node) (q : List Nat), (containsSt t q).2 = t) ∧
      (∀ (t : Node) (q : List Nat), (hassupSt t q).2 = t) ∧
      (∀ (t : Node) (q : List Nat), (hassubSt t q).2 = t) ∧
      (∀ (t : Node) (q path : List Nat), (iterSupSt t q path).2 = t) ∧
      (∀ (t : Node) (q path : List Nat), (iterSubSt t q path).2 = t) ∧
      (∀ (t : Node) (path : List Nat), (iterSt t path).2 = t) ∧
      (∀ (V : Type) (t : NodeM V) (q : List Nat) (d : V), (getSt t q d).2 = t) :=
  ⟨containsSt_state, hassupSt_state, fun t q => hassubSt_state q t,
    iterSupSt_state, iterSubSt_state, iterSt_state,
    fun _ t q d => getSt_state t q d⟩

/-- C10: `hassuperset` applied to the empty query returns `True`
unconditionally, on every `SetTrie` and every `SetTrieMap` (including ones
with no stored sets): the exhausted-index check at function entry fires
before any child or terminal flag is examined. -/
theorem hassuperset_empty_query_true :
    (∀ t : Node, hassuperset t [] = true) ∧
      (∀ (V : Type) (t : NodeM V), hassupersetMap t [] = true) := by
  constructor
  · intro t
    cases t
    rfl
  · intro V t
    cases t
    rfl

end Settrie
